import Mathlib

/-!
Shallow embedding of the text-analysis backend (`src/main.py`).

Strings are modelled as `List Char` (`Str`).  The embedding covers the two
pure heuristic functions `_heuristic_summary` and `_extract_actions`, the
static keyword list, and the `/analyze` handler.  Python's character classes
(`\s`, `str.strip()`, `str.splitlines()`) are modelled on their ASCII
members, which are the only ones the program's own constants use.
The regular expressions are modelled operationally; for each one the
greedy-with-backtracking semantics collapses to maximal-run scanning, as
argued in comments next to the corresponding definition.
-/

abbrev Str := List Char

/-- ASCII whitespace, as matched by Python's `\s`, `str.strip()` with no
arguments, and collapsed by `re.sub(r"\s+", " ", ...)`:
space, tab, newline, carriage return, vertical tab, form feed. -/
def isPySpace (c : Char) : Bool :=
  c == ' ' || c == '\t' || c == '\n' || c == '\r' ||
  c == Char.ofNat 11 || c == Char.ofNat 12

/-- ASCII line boundaries recognised by Python's `str.splitlines()`:
newline, carriage return (with `\r\n` counted once), vertical tab, form feed. -/
def isLineBreak (c : Char) : Bool :=
  c == '\n' || c == '\r' || c == Char.ofNat 11 || c == Char.ofNat 12

/-- The sentence-ending punctuation set of the regex `([^.?!]{10,200}[.?!])`. -/
def isPunct (c : Char) : Bool :=
  c == '.' || c == '?' || c == '!'

/-- The character class `[a-zA-Z]` of the imperative-heuristic regex. -/
def isAlpha (c : Char) : Bool :=
  ('a' ≤ c && c ≤ 'z') || ('A' ≤ c && c ≤ 'Z')

/-- The characters stripped by `l.strip(" -•\t")` on line 105 of main.py:
space, hyphen, bullet, tab. -/
def isBulletChar (c : Char) : Bool :=
  c == ' ' || c == '-' || c == '•' || c == '\t'

/-- `str.lower()` on the ASCII range (the program's keywords, regex literals
and prefix tests are all ASCII). -/
def pyLower (c : Char) : Char :=
  if 'A' ≤ c ∧ c ≤ 'Z' then Char.ofNat (c.toNat + 32) else c

def pyLowerStr (s : Str) : Str := s.map pyLower

/-- Remove trailing characters satisfying `p`. -/
def rstripP (p : Char → Bool) (s : Str) : Str :=
  (s.reverse.dropWhile p).reverse

/-- Remove leading and trailing characters satisfying `p`
(Python `str.strip(chars)`). -/
def stripP (p : Char → Bool) (s : Str) : Str :=
  rstripP p (s.dropWhile p)

/-- Python `str.strip()` with no arguments. -/
def stripWs (s : Str) : Str := stripP isPySpace s

/-- `l.strip(" -•\t")` from line 105 of main.py. -/
def stripBullet (s : Str) : Str := stripP isBulletChar s

/-- Worker for `re.sub(r"\s+", " ", text)`: `prev` records whether the
previously emitted character came from a whitespace run. -/
def collapseWsAux : Bool → Str → Str
  | _, [] => []
  | prev, c :: rest =>
    if isPySpace c then
      if prev then collapseWsAux true rest else ' ' :: collapseWsAux true rest
    else c :: collapseWsAux false rest

/-- `re.sub(r"\s+", " ", text)`: every maximal whitespace run becomes one space. -/
def collapseWs (s : Str) : Str := collapseWsAux false s

/-- `re.sub(r"\s+", " ", text).strip()` — line 85 of main.py. -/
def cleanedOf (t : Str) : Str := stripWs (collapseWs t)

/-- `re.search(r"([^.?!]{10,200}[.?!])", cleaned)` — line 91 of main.py.
The scan tries each start position from the left.  At a given position the
greedy quantifier `{10,200}` only ever succeeds at the full maximal run of
non-punctuation characters (every shorter prefix is followed by another
non-punctuation character), so a match at a position exists exactly when
that maximal run has length 10..200 and is followed by `.`, `?` or `!`;
the captured group includes the punctuation mark. -/
def sentSearch : Str → Option Str
  | [] => none
  | c :: rest =>
    let run := (c :: rest).takeWhile (fun d => !(isPunct d))
    if 10 ≤ run.length ∧ run.length ≤ 200 then
      match (c :: rest).drop run.length with
      | p :: _ => if isPunct p then some (run ++ [p]) else sentSearch rest
      | [] => sentSearch rest
    else sentSearch rest

/-- `(lang or "en").lower().startswith("te")` — line 89 of main.py. -/
def langIsTe (lang : Str) : Bool :=
  "te".data.isPrefixOf (pyLowerStr (if lang.isEmpty then "en".data else lang))

/-- The language tag prepended on line 89 of main.py. -/
def langTag (lang : Str) : Str :=
  if langIsTe lang then "[Telugu] ".data else []

/-- `_heuristic_summary` — lines 83-93 of main.py. -/
def heuristic_summary (text lang : Str) : Str :=
  let cleaned := cleanedOf text
  if cleaned.isEmpty then "No content provided.".data
  else
    let base :=
      match sentSearch cleaned with
      | some m => stripWs m
      | none => stripWs (cleaned.take 150)
    langTag lang ++ base

/-- `action_keywords` — lines 96-100 of main.py. -/
def action_keywords : List Str :=
  ["schedule", "reschedule", "meeting", "review", "submit", "report", "call",
   "notify", "send", "prepare", "follow up", "follow-up", "remind", "escalate",
   "approve", "circulate", "assign", "deadline", "arrange", "brief"].map String.data

/-- Python's substring test `pat in s`: `pat` is a prefix of some suffix. -/
def containsSub (pat : Str) : Str → Bool
  | [] => pat.isPrefixOf []
  | c :: rest => pat.isPrefixOf (c :: rest) || containsSub pat rest

/-- `any(k in low for k in action_keywords)` — line 108 of main.py. -/
def keywordHit (line : Str) : Bool :=
  action_keywords.any (fun k => containsSub k (pyLowerStr line))

/-- Python `str.splitlines()` on its ASCII line boundaries, with `\r\n`
counted as a single boundary and no empty final line after a trailing
boundary. -/
def splitlines : Str → List Str
  | [] => []
  | '\r' :: '\n' :: rest => [] :: splitlines rest
  | c :: rest =>
    if isLineBreak c then [] :: splitlines rest
    else
      match splitlines rest with
      | [] => [[c]]
      | l :: ls => (c :: l) :: ls

/-- The group `(please\s+)?` of the regexes on lines 112-113 of main.py, when
taken: the literal `please` followed by a maximal nonempty whitespace run;
returns the remainder of the line.  (`\s+` cannot usefully backtrack: the
pattern resumes with a character class that excludes whitespace.) -/
def pleasePrefixRest (s : Str) : Option Str :=
  if "please".data.isPrefixOf s then
    let r := s.drop 6
    if (r.takeWhile isPySpace).isEmpty then none
    else some (r.dropWhile isPySpace)
  else none

/-- The tail `([a-zA-Z]+)(\s+)[A-Za-z]` of the regex on line 112 of main.py,
anchored at the start of `s`: a maximal nonempty letter run, a maximal
nonempty whitespace run, then one more letter.  (Neither run can usefully
backtrack: each is followed by a class disjoint from it.) -/
def wordWsLetter (s : Str) : Bool :=
  let rest1 := s.dropWhile isAlpha
  let rest2 := rest1.dropWhile isPySpace
  !(s.takeWhile isAlpha).isEmpty && !(rest1.takeWhile isPySpace).isEmpty &&
    (match rest2.head? with
     | some c => isAlpha c
     | none => false)

/-- `re.match(r"^(please\s+)?([a-zA-Z]+)(\s+)[A-Za-z]", line)` — line 112 of
main.py: the optional group is tried first; on failure of the rest of the
pattern the engine retries with the group not taken. -/
def regexImpMatch (s : Str) : Bool :=
  (match pleasePrefixRest s with
   | some r => wordWsLetter r
   | none => false) || wordWsLetter s

/-- Group 2 of `re.match(r"^(please\s+)?([a-zA-Z]+)", line)` — line 113 of
main.py: if the `please` group is taken and at least one letter follows it,
the letter run after it; otherwise the letter run at the start of the line. -/
def imperativeToken (s : Str) : Str :=
  match pleasePrefixRest s with
  | some r => if (r.takeWhile isAlpha).isEmpty then s.takeWhile isAlpha
              else r.takeWhile isAlpha
  | none => s.takeWhile isAlpha

/-- `token.endswith("e") or ... or token.endswith("y")` — line 114 of main.py. -/
def endsVerbLike (s : Str) : Bool :=
  match s.getLast? with
  | some c => c == 'e' || c == 'd' || c == 'n' || c == 'y'
  | none => false

/-- The imperative-heuristic branch, lines 112-115 of main.py: the line is
appended exactly when the regex matches and the lower-cased first captured
word has a verb-like ending. -/
def imperativeRecords (line : Str) : Bool :=
  regexImpMatch line && endsVerbLike (pyLowerStr (imperativeToken line))

/-- A line is appended to the candidate list (lines 106-115 of main.py) iff
a keyword occurs in its lower-casing, or otherwise the imperative
heuristic fires. -/
def lineIsCandidate (line : Str) : Bool :=
  keywordHit line || imperativeRecords line

/-- `[l.strip(" -•\t") for l in text.splitlines() if l.strip()]` — line 105. -/
def linesOf (t : Str) : List Str :=
  ((splitlines t).filter (fun l => !(stripWs l).isEmpty)).map stripBullet

/-- The candidate lines appended by the loop on lines 106-115 of main.py,
in order. -/
def candidates (t : Str) : List Str :=
  (linesOf t).filter lineIsCandidate

/-- The deduplication loop on lines 117-123 of main.py: `seen` is the set of
lower-cased keys already emitted. -/
def dedupAux (seen : List Str) : List Str → List Str
  | [] => []
  | a :: rest =>
    if pyLowerStr a ∈ seen then dedupAux seen rest
    else a :: dedupAux (pyLowerStr a :: seen) rest

/-- The generic fallback action of line 126 of main.py. -/
def fallbackAction : Str :=
  "Review the message and assign to the concerned department.".data

/-- `_extract_actions` — lines 103-127 of main.py. -/
def extract_actions (t : Str) : List Str :=
  let deduped := dedupAux [] (candidates t)
  let deduped2 :=
    if deduped = [] ∧ ¬ stripWs t = [] then [fallbackAction] else deduped
  deduped2.take 10

/-- The `/analyze` handler — lines 130-134 of main.py.  `lang` is `none`
when the request omits the field or sends `null`; `req.lang or "en"`
replaces a missing or empty value by `"en"`. -/
def analyze (text : Str) (lang : Option Str) : Str × List Str :=
  let l :=
    match lang with
    | none => "en".data
    | some s => if s.isEmpty then "en".data else s
  (heuristic_summary text l, extract_actions text)

/-- Position of the first element of the list whose lower-casing is `k`
(length of the list when absent); used to state first-seen ordering. -/
def firstKeyIdx (k : Str) : List Str → Nat
  | [] => 0
  | c :: rest => if pyLowerStr c = k then 0 else firstKeyIdx k rest + 1

/-- Modelled from the words of claim C6, for comparison with the code:
remove surrounding whitespace but only LEADING bullet characters, so that
trailing non-whitespace characters such as a hyphen or bullet survive. -/
def claimStripC6 (l : Str) : Str :=
  rstripP isPySpace (l.dropWhile isBulletChar)

/-- Concrete input used to separate `cleaned[:150].strip()` from the literal
first 150 characters of the collapsed text: its 150th character is a space. -/
def c3input : Str :=
  List.replicate 149 'a' ++ ' ' :: List.replicate 10 'b'

/-! ## General helper lemmas -/

theorem dropWhile_all (p : Char → Bool) :
    ∀ s : Str, (∀ c ∈ s, p c = true) → s.dropWhile p = []
  | [], _ => rfl
  | c :: rest, h => by
    rw [List.dropWhile_cons_of_pos (h c (List.mem_cons_self c rest))]
    exact dropWhile_all p rest (fun d hd => h d (List.mem_cons_of_mem c hd))

theorem stripP_all (p : Char → Bool) (s : Str) (h : ∀ c ∈ s, p c = true) :
    stripP p s = [] := by
  unfold stripP rstripP
  rw [dropWhile_all p s h]
  rfl

theorem mem_of_mem_stripP (p : Char → Bool) (s : Str) (c : Char)
    (h : c ∈ stripP p s) : c ∈ s := by
  unfold stripP rstripP at h
  have h1 := List.mem_reverse.mp h
  have h2 := List.Sublist.mem h1 (List.dropWhile_sublist p)
  have h3 := List.mem_reverse.mp h2
  exact List.Sublist.mem h3 (List.dropWhile_sublist p)

theorem mem_collapseWsAux (s : Str) :
    ∀ (b : Bool) (c : Char), c ∈ collapseWsAux b s → c = ' ' ∨ c ∈ s := by
  induction s with
  | nil => intro b c h; simp [collapseWsAux] at h
  | cons d rest ih =>
    intro b c h
    unfold collapseWsAux at h
    split at h
    · split at h
      · rcases ih _ _ h with h' | h'
        · exact Or.inl h'
        · exact Or.inr (List.mem_cons_of_mem d h')
      · rcases List.mem_cons.mp h with h' | h'
        · exact Or.inl h'
        · rcases ih _ _ h' with h'' | h''
          · exact Or.inl h''
          · exact Or.inr (List.mem_cons_of_mem d h'')
    · rcases List.mem_cons.mp h with h' | h'
      · rw [h']; exact Or.inr (List.mem_cons_self d rest)
      · rcases ih _ _ h' with h'' | h''
        · exact Or.inl h''
        · exact Or.inr (List.mem_cons_of_mem d h'')

theorem splitlines_sublist (s : Str) : ∀ l ∈ splitlines s, List.Sublist l s := by
  induction s using splitlines.induct with
  | case1 => intro l hl; simp [splitlines] at hl
  | case2 rest ih =>
    intro l hl
    rw [splitlines.eq_2] at hl
    rcases List.mem_cons.mp hl with h | h
    · subst h; exact List.nil_sublist _
    · exact ((ih l h).trans (List.sublist_cons_self _ _)).trans (List.sublist_cons_self _ _)
  | case3 c rest hne hbr ih =>
    intro l hl
    rw [splitlines.eq_3 c rest hne, if_pos hbr] at hl
    rcases List.mem_cons.mp hl with h | h
    · subst h; exact List.nil_sublist _
    · exact (ih l h).trans (List.sublist_cons_self _ _)
  | case4 c rest hne hbr hnil ih =>
    intro l hl
    rw [splitlines.eq_3 c rest hne, if_neg hbr, hnil] at hl
    rcases List.mem_cons.mp hl with h | h
    · subst h
      exact List.cons_sublist_cons.mpr (List.nil_sublist _)
    · simp at h
  | case5 c rest hne hbr l0 ls0 heq ih =>
    intro l hl
    rw [splitlines.eq_3 c rest hne, if_neg hbr, heq] at hl
    rcases List.mem_cons.mp hl with h | h
    · subst h
      exact List.cons_sublist_cons.mpr (ih l0 (heq ▸ List.mem_cons_self l0 ls0))
    · exact (ih l (heq ▸ List.mem_cons_of_mem l0 h)).trans (List.sublist_cons_self _ _)

theorem isPrefixOf_append_self : ∀ (l m : Str), l.isPrefixOf (l ++ m) = true
  | [], _ => by simp [List.isPrefixOf]
  | c :: l, m => by
    simp only [List.cons_append, List.isPrefixOf, List.append_eq]
    rw [isPrefixOf_append_self l m]
    simp

theorem takeWhile_append_all (p : Char → Bool) :
    ∀ (w rest : Str), (∀ c ∈ w, p c = true) →
      (rest = [] ∨ ∃ d tl, rest = d :: tl ∧ p d = false) →
      (w ++ rest).takeWhile p = w
  | [], rest, _, hr => by
    rcases hr with rfl | ⟨d, tl, rfl, hd⟩
    · rfl
    · rw [List.nil_append, List.takeWhile_cons_of_neg (by simp [hd])]
  | c :: w, rest, hw, hr => by
    rw [List.cons_append, List.takeWhile_cons_of_pos (hw c (List.mem_cons_self _ _))]
    rw [takeWhile_append_all p w rest (fun d hd => hw d (List.mem_cons_of_mem _ hd)) hr]

theorem dropWhile_append_last (p : Char → Bool) (a : Char) (ha : p a = false) :
    ∀ r : Str, ∃ x, (r ++ [a]).dropWhile p = x ++ [a]
  | [] => ⟨[], by rw [List.nil_append, List.dropWhile_cons_of_neg (by simp [ha])]⟩
  | c :: r => by
    by_cases hc : p c = true
    · rcases dropWhile_append_last p a ha r with ⟨x, hx⟩
      exact ⟨x, by rw [List.cons_append, List.dropWhile_cons_of_pos hc, hx]⟩
    · exact ⟨c :: r, by rw [List.cons_append, List.dropWhile_cons_of_neg hc]⟩

/-! ## Character-class lemmas -/

theorem space_cases (c : Char) (h : isPySpace c = true) :
    c = ' ' ∨ c = '\t' ∨ c = '\n' ∨ c = '\r' ∨ c = Char.ofNat 11 ∨ c = Char.ofNat 12 := by
  simp only [isPySpace, Bool.or_eq_true, beq_iff_eq] at h
  tauto

theorem punct_cases (c : Char) (h : isPunct c = true) : c = '.' ∨ c = '?' ∨ c = '!' := by
  simp only [isPunct, Bool.or_eq_true, beq_iff_eq] at h
  tauto

theorem alpha_not_space (c : Char) (h : isAlpha c = true) : isPySpace c = false := by
  cases hsp : isPySpace c with
  | false => rfl
  | true =>
    exfalso
    rcases space_cases c hsp with h' | h' | h' | h' | h' | h' <;>
      rw [h'] at h <;> exact absurd h (by decide)

theorem punct_not_space (c : Char) (h : isPunct c = true) : isPySpace c = false := by
  rcases punct_cases c h with h' | h' | h' <;> rw [h'] <;> decide

/-! ## Lemmas about the sentence search -/

theorem sentSearch_none (s : Str) (h : ∀ c ∈ s, isPunct c = false) :
    sentSearch s = none := by
  induction s with
  | nil => rfl
  | cons c rest ih =>
    have ih' : sentSearch rest = none :=
      ih (fun d hd => h d (List.mem_cons_of_mem c hd))
    simp only [sentSearch]
    split
    · split
      · next p tail heq =>
        have hp : p ∈ c :: rest := by
          have hmem : p ∈ (c :: rest).drop ((c :: rest).takeWhile (fun d => !(isPunct d))).length := by
            rw [heq]; exact List.mem_cons_self p tail
          exact List.Sublist.mem hmem (List.drop_sublist _ _)
        rw [h p hp]
        simpa using ih'
      · exact ih'
    · exact ih'

theorem sentSearch_some (s : Str) (m : Str) (h : sentSearch s = some m) :
    ∃ r p, m = r ++ [p] ∧ isPunct p = true := by
  induction s with
  | nil => simp [sentSearch] at h
  | cons c rest ih =>
    simp only [sentSearch] at h
    split at h
    · split at h
      · split at h
        · next hp =>
          exact ⟨_, _, (Option.some.inj h).symm, hp⟩
        · exact ih h
      · exact ih h
    · exact ih h

/-! ## Lemmas about deduplication -/

theorem dedupAux_subset : ∀ (seen l : List Str) (a : Str), a ∈ dedupAux seen l → a ∈ l
  | _, [], a, h => absurd h (List.not_mem_nil a)
  | seen, b :: rest, a, h => by
    unfold dedupAux at h
    split at h
    · exact List.mem_cons_of_mem b (dedupAux_subset seen rest a h)
    · rcases List.mem_cons.mp h with h' | h'
      · rw [h']; exact List.mem_cons_self b rest
      · exact List.mem_cons_of_mem b (dedupAux_subset _ rest a h')

theorem dedupAux_key_notin : ∀ (seen l : List Str) (a : Str),
    a ∈ dedupAux seen l → ¬ pyLowerStr a ∈ seen
  | _, [], a, h => absurd h (List.not_mem_nil a)
  | seen, b :: rest, a, h => by
    unfold dedupAux at h
    split at h
    · exact dedupAux_key_notin seen rest a h
    · next hb =>
      rcases List.mem_cons.mp h with h' | h'
      · rw [h']; exact hb
      · intro hc
        exact dedupAux_key_notin _ rest a h' (List.mem_cons_of_mem _ hc)

theorem firstKeyIdx_cons (k : Str) (c : Str) (rest : List Str) :
    firstKeyIdx k (c :: rest) =
      if pyLowerStr c = k then 0 else firstKeyIdx k rest + 1 := rfl

theorem dedupAux_ordered : ∀ (l seen : List Str),
    List.Pairwise (fun a b =>
      firstKeyIdx (pyLowerStr a) l < firstKeyIdx (pyLowerStr b) l) (dedupAux seen l)
  | [], _ => List.Pairwise.nil
  | c :: rest, seen => by
    unfold dedupAux
    split
    · next hmem =>
      refine (dedupAux_ordered rest seen).imp_of_mem ?_
      intro a b ha hb hlt
      have hka : ¬ pyLowerStr a = pyLowerStr c := by
        intro he
        exact dedupAux_key_notin seen rest a ha (he ▸ hmem)
      have hkb : ¬ pyLowerStr b = pyLowerStr c := by
        intro he
        exact dedupAux_key_notin seen rest b hb (he ▸ hmem)
      rw [firstKeyIdx_cons, firstKeyIdx_cons, if_neg (fun he => hka he.symm),
        if_neg (fun he => hkb he.symm)]
      exact Nat.succ_lt_succ hlt
    · next hmem =>
      refine List.Pairwise.cons ?_ ?_
      · intro b hb
        have hkb : ¬ pyLowerStr b = pyLowerStr c := by
          intro he
          exact dedupAux_key_notin _ rest b hb (he ▸ List.mem_cons_self _ _)
        rw [firstKeyIdx_cons, firstKeyIdx_cons, if_pos rfl,
          if_neg (fun he => hkb he.symm)]
        exact Nat.succ_pos _
      · refine (dedupAux_ordered rest (pyLowerStr c :: seen)).imp_of_mem ?_
        intro a b ha hb hlt
        have hka : ¬ pyLowerStr a = pyLowerStr c := by
          intro he
          exact dedupAux_key_notin _ rest a ha (he ▸ List.mem_cons_self _ _)
        have hkb : ¬ pyLowerStr b = pyLowerStr c := by
          intro he
          exact dedupAux_key_notin _ rest b hb (he ▸ List.mem_cons_self _ _)
        rw [firstKeyIdx_cons, firstKeyIdx_cons, if_neg (fun he => hka he.symm),
          if_neg (fun he => hkb he.symm)]
        exact Nat.succ_lt_succ hlt

/-! ## Lemmas about stripping -/

theorem stripWs_concat (r : Str) (p : Char) (hp : isPySpace p = false) :
    ∃ x, stripWs (r ++ [p]) = x ++ [p] := by
  unfold stripWs stripP
  rcases dropWhile_append_last isPySpace p hp r with ⟨x, hx⟩
  rw [hx]
  refine ⟨x, ?_⟩
  unfold rstripP
  rw [List.reverse_append]
  simp only [List.reverse_cons, List.reverse_nil, List.nil_append, List.singleton_append]
  rw [List.dropWhile_cons_of_neg (by simp [hp])]
  simp

/-! ## Claim theorems -/

/-- Claim C1: for every input text, the actions list returned by the action
extractor (and hence by POST /analyze) has at most 10 entries, no two of its
entries are equal when compared case-insensitively, and entries appear in the
order of the first occurrence of their case-insensitive content among the
recorded candidates. -/
theorem actions_bounded_nodup_ordered (t : Str) :
    (extract_actions t).length ≤ 10 ∧
    List.Pairwise (fun a b => ¬ pyLowerStr a = pyLowerStr b) (extract_actions t) ∧
    List.Pairwise (fun a b =>
      firstKeyIdx (pyLowerStr a) (candidates t) < firstKeyIdx (pyLowerStr b) (candidates t))
      (extract_actions t) := by
  have hfull : List.Pairwise (fun a b =>
      firstKeyIdx (pyLowerStr a) (candidates t) < firstKeyIdx (pyLowerStr b) (candidates t))
      (if dedupAux [] (candidates t) = [] ∧ ¬ stripWs t = [] then [fallbackAction]
       else dedupAux [] (candidates t)) := by
    split
    · exact List.pairwise_singleton _ _
    · exact dedupAux_ordered (candidates t) []
  have hord : List.Pairwise (fun a b =>
      firstKeyIdx (pyLowerStr a) (candidates t) < firstKeyIdx (pyLowerStr b) (candidates t))
      (extract_actions t) := by
    simp only [extract_actions]
    exact hfull.sublist (List.take_sublist _ _)
  refine ⟨?_, ?_, hord⟩
  · simp only [extract_actions]
    exact List.length_take_le _ _
  · exact hord.imp (fun {a b} hlt heq => absurd hlt (by rw [heq]; exact lt_irrefl _))

/-- Claim C2 is false as stated: the one-space text is a non-empty input for
which no candidate line is recorded, yet the returned actions list is empty
rather than the single generic fallback entry (because line 125 of main.py
tests `text.strip()`, which is falsy here). -/
theorem fallback_claim_cex :
    ¬ ([' '] : Str) = [] ∧ candidates [' '] = [] ∧
    extract_actions [' '] = [] ∧ ¬ extract_actions [' '] = [fallbackAction] := by
  decide

/-- Claim C2 (amended): for every input text whose whitespace-stripped form is
non-empty and for which neither heuristic records any candidate line, the
returned actions list contains exactly the generic fallback entry. -/
theorem fallback_on_nonblank_no_candidates (t : Str)
    (h1 : ¬ stripWs t = []) (h2 : candidates t = []) :
    extract_actions t = [fallbackAction] := by
  simp only [extract_actions, h2]
  rw [if_pos ⟨rfl, h1⟩]
  rfl

/-- Witness for the amended C2 at the concrete input "hello world". -/
theorem fallback_on_nonblank_no_candidates_witness :
    extract_actions "hello world".data = [fallbackAction] :=
  fallback_on_nonblank_no_candidates "hello world".data (by decide) (by decide)

/-- Claim C5: for every input text consisting only of whitespace characters
(including the empty string), the summary equals "No content provided." for
every language, and the actions list is empty with no fallback added. -/
theorem blank_input_summary_and_actions (t lang : Str)
    (h : ∀ c ∈ t, isPySpace c = true) :
    heuristic_summary t lang = "No content provided.".data ∧
    extract_actions t = [] := by
  have hstrip : stripWs t = [] := stripP_all _ _ h
  have hc : cleanedOf t = [] := by
    unfold cleanedOf
    apply stripP_all
    intro c hcm
    rcases mem_collapseWsAux t false c hcm with h' | h'
    · rw [h']; decide
    · exact h c h'
  constructor
  · simp [heuristic_summary, hc]
  · have hlines : linesOf t = [] := by
      unfold linesOf
      have hfil : (splitlines t).filter (fun l => !(stripWs l).isEmpty) = [] := by
        rw [List.filter_eq_nil_iff]
        intro l hl
        have hwl : stripWs l = [] := by
          apply stripP_all
          intro c hcl
          exact h c (List.Sublist.mem hcl (splitlines_sublist t l hl))
        simp [hwl]
      rw [hfil]
      rfl
    have hcand : candidates t = [] := by
      unfold candidates
      rw [hlines]
      rfl
    simp only [extract_actions, hcand]
    rw [if_neg]
    · rfl
    · intro hcon
      exact hcon.2 hstrip

/-- Witness for C5 at a concrete all-whitespace input. -/
theorem blank_input_witness :
    heuristic_summary (' ' :: '\n' :: '\t' :: []) "en".data = "No content provided.".data ∧
    extract_actions (' ' :: '\n' :: '\t' :: []) = [] :=
  blank_input_summary_and_actions _ _ (by decide)

/-- Claim C7: the analyze operation is deterministic — equal text and lang
inputs produce identical responses (the embedding is a pure function). -/
theorem analyze_deterministic (t1 t2 : Str) (l1 l2 : Option Str)
    (h1 : t1 = t2) (h2 : l1 = l2) : analyze t1 l1 = analyze t2 l2 := by
  rw [h1, h2]

/-- Witness for C7 at a concrete request. -/
theorem analyze_deterministic_witness :
    analyze "hi".data (some "en".data) = analyze "hi".data (some "en".data) :=
  analyze_deterministic "hi".data "hi".data (some "en".data) (some "en".data) rfl rfl

/-- Claim C10: every element of the returned actions list is either the fixed
fallback string or some line of the input stripped (on both sides) of space,
hyphen, bullet and tab characters. -/
theorem actions_from_lines_or_fallback (t : Str) (a : Str)
    (h : a ∈ extract_actions t) :
    a = fallbackAction ∨ ∃ l ∈ splitlines t, a = stripBullet l := by
  simp only [extract_actions] at h
  have h2 := List.Sublist.mem h (List.take_sublist _ _)
  split at h2
  · left
    simpa using h2
  · right
    have h3 := dedupAux_subset _ _ _ h2
    simp only [candidates] at h3
    have h4 : a ∈ linesOf t := List.mem_of_mem_filter h3
    simp only [linesOf] at h4
    rcases List.mem_map.mp h4 with ⟨l, hl, heq⟩
    exact ⟨l, List.mem_of_mem_filter hl, heq.symm⟩

/-- Witness for C10 at the concrete input "- send it -". -/
theorem actions_from_lines_witness :
    "send it".data = fallbackAction ∨
    ∃ l ∈ splitlines "- send it -".data, "send it".data = stripBullet l :=
  actions_from_lines_or_fallback "- send it -".data "send it".data (by decide)

/-- Claim C6 is false as stated: in the input "- send it -" the only line
yields the recorded candidate "send it", whereas stripping only surrounding
whitespace and leading bullet characters (the claimed transformation,
`claimStripC6`) would preserve the trailing hyphen and give "send it -". -/
theorem candidate_trailing_bullet_cex :
    candidates "- send it -".data = ["send it".data] ∧
    splitlines "- send it -".data = ["- send it -".data] ∧
    claimStripC6 "- send it -".data = "send it -".data ∧
    ¬ "send it".data = "send it -".data := by
  decide

/-- Claim C6 (amended): every candidate recorded by the action extractor is
some non-blank line of the input stripped on BOTH sides of space, hyphen,
bullet and tab characters (so trailing bullet characters are removed too). -/
theorem candidates_are_stripped_lines (t : Str) (c : Str)
    (h : c ∈ candidates t) :
    ∃ l ∈ splitlines t, ¬ stripWs l = [] ∧ c = stripBullet l := by
  simp only [candidates] at h
  have h1 : c ∈ linesOf t := List.mem_of_mem_filter h
  simp only [linesOf] at h1
  rcases List.mem_map.mp h1 with ⟨l, hl, heq⟩
  rcases List.mem_filter.mp hl with ⟨hmem, hp⟩
  refine ⟨l, hmem, ?_, heq.symm⟩
  intro hnil
  rw [hnil] at hp
  simp at hp

/-- Witness for the amended C6 at the concrete input "- send it -". -/
theorem candidates_are_stripped_lines_witness :
    ∃ l ∈ splitlines "- send it -".data,
      ¬ stripWs l = [] ∧ "send it".data = stripBullet l :=
  candidates_are_stripped_lines "- send it -".data "send it".data (by decide)

set_option maxRecDepth 40000 in
/-- Claim C3 is false as stated: `c3input` is non-empty, punctuation-free and
collapses to 160 characters, but its summary (lang "en", so no language tag)
is `cleaned[:150].strip()`, which drops the trailing space of the literal
first 150 characters. -/
theorem summary_first150_cex :
    ¬ c3input = [] ∧
    (∀ c ∈ c3input, isPunct c = false) ∧
    150 < (cleanedOf c3input).length ∧
    ¬ heuristic_summary c3input "en".data =
      langTag "en".data ++ (cleanedOf c3input).take 150 := by
  decide

/-- Claim C3 (amended): for every text with no sentence-ending punctuation
whose whitespace-collapsed form is longer than 150 characters, the summary is
the language tag followed by the first 150 characters of the collapsed text
with surrounding whitespace stripped (line 92 of main.py strips the slice). -/
theorem summary_first150_stripped (t lang : Str)
    (h2 : ∀ c ∈ t, isPunct c = false)
    (h3 : 150 < (cleanedOf t).length) :
    heuristic_summary t lang = langTag lang ++ stripWs ((cleanedOf t).take 150) := by
  have hne : ¬ (cleanedOf t).isEmpty = true := by
    intro hcl
    rw [List.isEmpty_iff] at hcl
    rw [hcl] at h3
    simp at h3
  have hnopunct : ∀ c ∈ cleanedOf t, isPunct c = false := by
    intro c hcm
    have hcoll : c ∈ collapseWs t := mem_of_mem_stripP isPySpace (collapseWs t) c hcm
    rcases mem_collapseWsAux t false c hcoll with h' | h'
    · rw [h']; decide
    · exact h2 c h'
  have hs : sentSearch (cleanedOf t) = none := sentSearch_none _ hnopunct
  simp only [heuristic_summary]
  rw [if_neg hne, hs]

set_option maxRecDepth 40000 in
/-- Witness for the amended C3 at 151 letters. -/
theorem summary_first150_stripped_witness :
    heuristic_summary (List.replicate 151 'a') "en".data =
      langTag "en".data ++ stripWs ((cleanedOf (List.replicate 151 'a')).take 150) :=
  summary_first150_stripped (List.replicate 151 'a') "en".data (by decide) (by decide)

/-- Claim C4 is false as stated: with lang "te" and an empty text the summary
is the no-content message, which does not begin with the Telugu tag. -/
theorem telugu_tag_cex :
    "te".data.isPrefixOf (pyLowerStr "te".data) = true ∧
    heuristic_summary [] "te".data = "No content provided.".data ∧
    "[Telugu] ".data.isPrefixOf (heuristic_summary [] "te".data) = false := by
  decide

/-- Claim C4 (amended): for every input text whose whitespace-collapsed form
is non-empty and every lang whose lower-cased form starts with "te", the
summary begins with "[Telugu] ". -/
theorem telugu_tag (t lang : Str)
    (h1 : ¬ cleanedOf t = [])
    (h2 : "te".data.isPrefixOf (pyLowerStr lang) = true) :
    "[Telugu] ".data.isPrefixOf (heuristic_summary t lang) = true := by
  have hlne : ¬ lang.isEmpty = true := by
    intro he
    rw [List.isEmpty_iff] at he
    rw [he] at h2
    exact absurd h2 (by decide)
  have htag : langTag lang = "[Telugu] ".data := by
    unfold langTag langIsTe
    rw [if_neg hlne, h2]
    simp
  have hne2 : ¬ (cleanedOf t).isEmpty = true := by
    intro he
    exact h1 (List.isEmpty_iff.mp he)
  simp only [heuristic_summary]
  rw [if_neg hne2, htag]
  exact isPrefixOf_append_self _ _

/-- Witness for the amended C4 at text "hello", lang "TE-in". -/
theorem telugu_tag_witness :
    "[Telugu] ".data.isPrefixOf (heuristic_summary "hello".data "TE-in".data) = true :=
  telugu_tag "hello".data "TE-in".data (by decide) (by decide)

/-- Claim C9: whenever the sentence-extraction search succeeds on the
whitespace-collapsed text, the returned summary ends with the matched
terminal punctuation mark. -/
theorem summary_ends_with_punct (t lang m : Str)
    (h : sentSearch (cleanedOf t) = some m) :
    ∃ c, (heuristic_summary t lang).getLast? = some c ∧ isPunct c = true := by
  rcases sentSearch_some _ _ h with ⟨r, p, rfl, hp⟩
  have hne : ¬ (cleanedOf t).isEmpty = true := by
    intro he
    rw [List.isEmpty_iff] at he
    rw [he] at h
    simp [sentSearch] at h
  rcases stripWs_concat r p (punct_not_space p hp) with ⟨x, hx⟩
  refine ⟨p, ?_, hp⟩
  simp only [heuristic_summary]
  rw [if_neg hne]
  simp only [h]
  rw [hx, ← List.append_assoc]
  exact List.getLast?_concat _

/-- Witness for C9 at a text containing a matched sentence. -/
theorem summary_ends_with_punct_witness :
    ∃ c, (heuristic_summary "Hello there friend. more".data "en".data).getLast? = some c ∧
      isPunct c = true :=
  summary_ends_with_punct "Hello there friend. more".data "en".data
    "Hello there friend.".data (by decide)

/-! ## Lemmas for the imperative heuristic (claim C8) -/

theorem takeWhile_alpha_capitalPlease (t : Str) :
    ('P' :: 'l' :: 'e' :: 'a' :: 's' :: 'e' :: ' ' :: t).takeWhile isAlpha =
      'P' :: 'l' :: 'e' :: 'a' :: 's' :: 'e' :: [] := by
  rw [List.takeWhile_cons_of_pos (by decide), List.takeWhile_cons_of_pos (by decide),
    List.takeWhile_cons_of_pos (by decide), List.takeWhile_cons_of_pos (by decide),
    List.takeWhile_cons_of_pos (by decide), List.takeWhile_cons_of_pos (by decide),
    List.takeWhile_cons_of_neg (by decide)]

theorem dropWhile_alpha_capitalPlease (t : Str) :
    ('P' :: 'l' :: 'e' :: 'a' :: 's' :: 'e' :: ' ' :: t).dropWhile isAlpha = ' ' :: t := by
  rw [List.dropWhile_cons_of_pos (by decide), List.dropWhile_cons_of_pos (by decide),
    List.dropWhile_cons_of_pos (by decide), List.dropWhile_cons_of_pos (by decide),
    List.dropWhile_cons_of_pos (by decide), List.dropWhile_cons_of_pos (by decide),
    List.dropWhile_cons_of_neg (by decide)]

theorem regexImp_capital (c : Char) (s : Str) (hc : isAlpha c = true) :
    regexImpMatch ('P' :: 'l' :: 'e' :: 'a' :: 's' :: 'e' :: ' ' :: c :: s) = true := by
  have hcs : ¬ isPySpace c = true := by rw [alpha_not_space c hc]; simp
  have hpp : pleasePrefixRest ('P' :: 'l' :: 'e' :: 'a' :: 's' :: 'e' :: ' ' :: c :: s) = none := rfl
  have hw : wordWsLetter ('P' :: 'l' :: 'e' :: 'a' :: 's' :: 'e' :: ' ' :: c :: s) = true := by
    simp only [wordWsLetter]
    rw [dropWhile_alpha_capitalPlease, takeWhile_alpha_capitalPlease]
    rw [List.dropWhile_cons_of_pos (by decide : isPySpace ' ' = true),
      List.dropWhile_cons_of_neg hcs,
      List.takeWhile_cons_of_pos (by decide : isPySpace ' ' = true),
      List.takeWhile_cons_of_neg hcs]
    simp [hc]
  simp only [regexImpMatch, hpp]
  rw [hw]
  simp

theorem token_capital (c : Char) (s : Str) :
    imperativeToken ('P' :: 'l' :: 'e' :: 'a' :: 's' :: 'e' :: ' ' :: c :: s) =
      'P' :: 'l' :: 'e' :: 'a' :: 's' :: 'e' :: [] := by
  simp only [imperativeToken,
    show pleasePrefixRest ('P' :: 'l' :: 'e' :: 'a' :: 's' :: 'e' :: ' ' :: c :: s) = none from rfl]
  exact takeWhile_alpha_capitalPlease (c :: s)

theorem imperativeRecords_capital (c : Char) (s : Str) (hc : isAlpha c = true) :
    imperativeRecords ('P' :: 'l' :: 'e' :: 'a' :: 's' :: 'e' :: ' ' :: c :: s) = true := by
  simp only [imperativeRecords]
  rw [regexImp_capital c s hc, token_capital c s]
  decide

theorem please_lower_token (c : Char) (w2 rest' : Str)
    (hc : isAlpha c = true)
    (hall : ∀ d ∈ w2, isAlpha d = true)
    (hrest : rest' = [] ∨ ∃ d tl, rest' = d :: tl ∧ isAlpha d = false) :
    imperativeToken ('p' :: 'l' :: 'e' :: 'a' :: 's' :: 'e' :: ' ' :: c :: (w2 ++ rest')) =
      c :: w2 := by
  have hcs : ¬ isPySpace c = true := by rw [alpha_not_space c hc]; simp
  have hpp : pleasePrefixRest ('p' :: 'l' :: 'e' :: 'a' :: 's' :: 'e' :: ' ' :: c :: (w2 ++ rest')) =
      some ((c :: (w2 ++ rest')).dropWhile isPySpace) := rfl
  rw [List.dropWhile_cons_of_neg hcs] at hpp
  simp only [imperativeToken, hpp]
  rw [List.takeWhile_cons_of_pos hc]
  rw [takeWhile_append_all isAlpha w2 rest' hall hrest]
  simp

/-- Claim C8: the imperative heuristic is case-sensitive in its treatment of
"please".  First conjunct: a stripped line "Please W ..." (capital P, W a
word of letters) is always recorded as a candidate whatever W is, because the
regex's lowercase literal group fails on "Please", so "Please" itself is
captured as the first word and its lower-casing ends in "e".  Second
conjunct: on a line "please W ..." (lowercase p, W a maximal word of
letters), the imperative heuristic — the branch of lines 112-115, consulted
for lines without a keyword hit — records the line only if W, lower-cased,
ends in "e", "d", "n" or "y". -/
theorem please_case_sensitivity :
    (∀ (w rest : Str), ¬ w = [] → (∀ d ∈ w, isAlpha d = true) →
      lineIsCandidate ('P' :: 'l' :: 'e' :: 'a' :: 's' :: 'e' :: ' ' :: (w ++ rest)) = true) ∧
    (∀ (w rest : Str), ¬ w = [] → (∀ d ∈ w, isAlpha d = true) →
      (rest = [] ∨ ∃ d tl, rest = d :: tl ∧ isAlpha d = false) →
      imperativeRecords ('p' :: 'l' :: 'e' :: 'a' :: 's' :: 'e' :: ' ' :: (w ++ rest)) = true →
      endsVerbLike (pyLowerStr w) = true) := by
  constructor
  · intro w rest hw hall
    obtain ⟨c, w2, rfl⟩ : ∃ c w2, w = c :: w2 := by
      cases w with
      | nil => exact absurd rfl hw
      | cons c w2 => exact ⟨c, w2, rfl⟩
    have hc : isAlpha c = true := hall c (List.mem_cons_self _ _)
    simp only [List.cons_append, lineIsCandidate]
    rw [imperativeRecords_capital c (w2 ++ rest) hc]
    simp
  · intro w rest hw hall hrest hrec
    obtain ⟨c, w2, rfl⟩ : ∃ c w2, w = c :: w2 := by
      cases w with
      | nil => exact absurd rfl hw
      | cons c w2 => exact ⟨c, w2, rfl⟩
    have hc : isAlpha c = true := hall c (List.mem_cons_self _ _)
    have hall2 : ∀ d ∈ w2, isAlpha d = true :=
      fun d hd => hall d (List.mem_cons_of_mem _ hd)
    simp only [List.cons_append, imperativeRecords] at hrec
    rw [please_lower_token c w2 rest hc hall2 hrest] at hrec
    rw [Bool.and_eq_true] at hrec
    exact hrec.2

/-- Witness for C8 at "Please do it" (always recorded) and "please buy it"
(recorded by the heuristic, with "buy" ending in "y"). -/
theorem please_case_sensitivity_witness :
    lineIsCandidate ('P' :: 'l' :: 'e' :: 'a' :: 's' :: 'e' :: ' ' :: ("do".data ++ " it".data)) = true ∧
    endsVerbLike (pyLowerStr "buy".data) = true :=
  ⟨please_case_sensitivity.1 "do".data " it".data (by decide) (by decide),
   please_case_sensitivity.2 "buy".data " it".data (by decide) (by decide)
     (Or.inr ⟨' ', "it".data, rfl, by decide⟩) (by decide)⟩
